import Mathlib

/-!
Verification of the MuseMorphose-Diff data pipeline (`dataloader.py`).

The development shallowly embeds the REMI event encoder, the vocabulary
indexer, the dataset boundary normalization, the window sampler, the pitch
augmenter, and the encoder/decoder tensor builders as executable Lean
functions, and proves (or refutes) the specification claims about them.

Conventions used throughout:
- Python lists become `List`; numpy arrays of ints become `List Nat`
  (all times, token codes and boundary indices in the source are
  non-negative integers); pitches and semitone shifts, which can go
  negative during transposition, are `Int`.
- Fallible Python code (`raise`, failed `assert`, `IndexError`,
  `ZeroDivisionError`) is embedded as `Except String _` / `Option _`.
- `random.choice` draws are passed in explicitly as arguments
  (`draw`, `draws`), so every function is a pure function of its inputs.
- Exact rational arithmetic stands in for Python float division inside
  `math.ceil` (the quantizer divides non-negative integers, where
  `ceil(a / b) = (a + b - 1) / b` in integer arithmetic).
-/

set_option maxRecDepth 100000

/-! ## Time Quantizer (`_get_measure_position` in `to_remi_event_sequence`) -/

/-- Embedding of `np.searchsorted(xs, t, "right")` for a sorted list `xs`:
the number of entries that are `≤ t`, i.e. the insertion point that keeps
`xs` sorted with `t` placed after every equal entry. -/
def searchsortedRight (xs : List Nat) (t : Nat) : Nat :=
  xs.countP (fun x => decide (x ≤ t))

/-- Embedding of `measure_idx = np.searchsorted(measure_times, time, "right") - 1`
(line 63 of `dataloader.py`).  In the source `measure_times` always contains
the time `0`, so the subtraction never truncates on the inputs that occur. -/
def measureIdx (ms : List Nat) (t : Nat) : Nat :=
  searchsortedRight ms t - 1

/-- Embedding of the `measure_length` computation (lines 64-71 of
`dataloader.py`): distance to the next boundary, except that the last
measure reuses the distance from the previous boundary. -/
def measureLength (ms : List Nat) (t : Nat) : Nat :=
  let i := measureIdx ms t
  if i < ms.length - 1 then
    ms.getD (i + 1) 0 - ms.getD i 0
  else
    ms.getD i 0 - ms.getD (i - 1) 0

/-- `ceilDiv a b = ⌈a / b⌉` for natural `a` and positive `b`: the integer
value of Python `math.ceil(a / b)` on non-negative exact operands. -/
def ceilDiv (a b : Nat) : Nat :=
  (a + b - 1) / b

/-- Embedding of `_get_measure_position` (lines 62-75 of `dataloader.py`):
the `(measure_idx, position)` pair, where
`position = ceil(res * (time - measure_times[measure_idx]) / measure_length) % res`
(the ceiling is applied before the modulo). -/
def getMeasurePosition (res : Nat) (ms : List Nat) (t : Nat) : Nat × Nat :=
  let i := measureIdx ms t
  let len := measureLength ms t
  (i, ceilDiv (res * (t - ms.getD i 0)) len % res)

/-- `_get_measure_position` with Python's `ZeroDivisionError` made explicit:
dividing by a zero `measure_length` raises. -/
def getMeasurePositionE (res : Nat) (ms : List Nat) (t : Nat) :
    Except String (Nat × Nat) :=
  if measureLength ms t = 0 then
    .error "ZeroDivisionError"
  else
    .ok (getMeasurePosition res ms t)

/-! ## Vocabulary (`get_remi_indexer`, lines 115-144 of `dataloader.py`)

The Python code enumerates event-id strings `"bar"`, `"eos"`,
`"note_on_{i}"`, `"note_duration_{i}"`, `"note_velocity_{i}"`,
`"position_{i}"`, `"tempo_{i}"` in a fixed order.  Here the seven string
families are embedded as the constructors of `REMIEventId` together with
`renderEventId`, which produces the exact Python string of each id; the
rendering is injective because the family name is part of each string. -/

/-- One event-id string of `get_remi_indexer`, in structured form. -/
inductive REMIEventId where
  | bar
  | eos
  | noteOn (pitch : Nat)
  | noteDuration (steps : Nat)
  | noteVelocity (bucket : Nat)
  | pos (p : Nat)
  | tempo (qpm : Nat)
deriving DecidableEq

/-- The Python string of an event id, exactly as `get_remi_indexer` and the
`seq.to_*_event` helpers spell it. -/
def renderEventId : REMIEventId → String
  | .bar => "bar"
  | .eos => "eos"
  | .noteOn p => "note_on_" ++ toString p
  | .noteDuration d => "note_duration_" ++ toString d
  | .noteVelocity v => "note_velocity_" ++ toString v
  | .pos p => "position_" ++ toString p
  | .tempo q => "tempo_" ++ toString q

/-- Embedding of `get_remi_indexer` (lines 115-144 of `dataloader.py`): the
event ids in insertion order.  The integer code of an id is its index in
this list, matching the consecutive `idx` counter of the source. -/
def remiEventIds : List REMIEventId :=
  [.bar, .eos]
  ++ (List.range 128).map .noteOn
  ++ (List.range 64).map (fun i => .noteDuration (i + 1))
  ++ (List.range 32).map .noteVelocity
  ++ (List.range 24).map .pos
  ++ (List.range 180).map (fun i => .tempo (i + 30))

/-- The event-id strings of the indexer, in insertion order. -/
def remiEventStrings : List String :=
  remiEventIds.map renderEventId

/-- Encoding an event id with the indexer: its integer code. -/
def remiEncode (e : REMIEventId) : Nat :=
  remiEventIds.indexOf e

/-- Decoding an integer code with the inverse of the indexer. -/
def remiDecode (c : Nat) : REMIEventId :=
  remiEventIds.getD c .bar

/-- The closed-form code of each event id under the enumeration order. -/
def remiClosedFormCode : REMIEventId → Nat
  | .bar => 0
  | .eos => 1
  | .noteOn p => 2 + p
  | .noteDuration d => 130 + (d - 1)
  | .noteVelocity v => 194 + v
  | .pos p => 226 + p
  | .tempo q => 250 + (q - 30)

/-! ## Event Encoder (`to_remi_event_sequence`, lines 37-113 of `dataloader.py`) -/

/-- A muspy note, with the fields `to_remi_event_sequence` reads.  The
duration is an `Int` because the source explicitly filters notes with
non-positive duration. -/
structure MNote where
  time : Nat
  pitch : Nat
  duration : Int
  velocity : Nat
deriving DecidableEq

/-- A muspy tempo change, with the fields `to_remi_event_sequence` reads. -/
structure MTempo where
  time : Nat
  qpm : Int
deriving DecidableEq

/-- A muspy `Music` object, restricted to the parts `to_remi_event_sequence`
reads: per-track note lists, tempo changes, and barline times.
`music.adjust_resolution(res)` (a muspy call outside this repository)
rescales all times to `res` subdivisions per quarter note; the embedding
takes the already-rescaled object.  Rescaling does not change the number of
notes, tempos or barlines. -/
structure Music where
  tracks : List (List MNote)
  tempos : List MTempo
  barlines : List Nat
deriving DecidableEq

/-- Modelled from the spec: muspy's `REMIEventSequence.to_note_velocity_event`
is not part of this repository; the spec fixes 32 velocity buckets
(`NoteVelocity(bucket ∈ [0,31])`) for the 128 MIDI velocities, i.e.
`bucket = velocity / 4`, clamped into the bucket range. -/
def velocityBucket (v : Nat) : Nat :=
  min 31 (v / 4)

/-- Builds a list from fallible element computations, propagating the first
error: the embedding of a Python loop that appends to a list and may raise. -/
def mapOrErr (f : α → Except String β) : List α → Except String (List β)
  | [] => .ok []
  | a :: as =>
    match f a with
    | .error e => .error e
    | .ok b =>
      match mapOrErr f as with
      | .error e => .error e
      | .ok bs => .ok (b :: bs)

/-- Lexicographic `≤` on `(measure_idx, position)` keys: Python's tuple
comparison, as used by `events.sort(key=itemgetter(0))`. -/
def keyLe (a b : (Nat × Nat) × List String) : Prop :=
  a.1.1 < b.1.1 ∨ (a.1.1 = b.1.1 ∧ a.1.2 ≤ b.1.2)

instance : DecidableRel keyLe := fun a b => by
  rw [keyLe]; infer_instance

/-- Embedding of lines 56-58 of `dataloader.py`: insert a measure boundary
at time 0 if the first stored barline time is not 0 (`barline_times[0]` is
only read on a non-empty list; the empty case raises beforehand). -/
def insertZeroBar (bs : List Nat) : List Nat :=
  if bs.headD 0 ≠ 0 then 0 :: bs else bs

/-- Embedding of `measure_times = np.sort(barline_times)` (line 59 of
`dataloader.py`).  `List.insertionSort` is a stable sort that reduces in
the kernel; on a list of naturals it produces the unique sorted
rearrangement, like `np.sort`. -/
def measureTimesOf (music : Music) : List Nat :=
  (insertZeroBar music.barlines).insertionSort (· ≤ ·)

/-- Quantizes one timestamp and attaches an event-string group to it: the
building block of the three `events.append((_get_measure_position(t), ...))`
loops of `to_remi_event_sequence`. -/
def withPosition (music : Music) (res : Nat) (mk : Nat × Nat → List String)
    (t : Nat) : Except String ((Nat × Nat) × List String) :=
  (getMeasurePositionE res (measureTimesOf music) t).map (fun mp => (mp, mk mp))

/-- Embedding of the serialization loop (lines 107-112 of `dataloader.py`):
every event group that does not start with `"bar"` is preceded by a
position event; the sequence is terminated by a single `"eos"`. -/
def serializeRemiEvents (evs : List ((Nat × Nat) × List String)) :
    List String :=
  (evs.foldl (fun acc ev =>
    if ev.2.headD "" ≠ "bar" then
      acc ++ ("position_" ++ toString ev.1.2) :: ev.2
    else
      acc ++ ev.2) []) ++ ["eos"]

/-- Embedding of `to_remi_event_sequence` (lines 37-113 of `dataloader.py`).
Raises (`.error`) exactly where the Python function raises: the explicit
`RuntimeError` when no notes are found, the `IndexError` of
`barline_times[0]` on an empty barline list, the `assert
len(measure_times) > 1`, and the `ZeroDivisionError` of a zero measure
length.  Returns the serialized event-string sequence otherwise.  The
stable event sort `events.sort(key=itemgetter(0))` is embedded as a stable
insertion sort on the lexicographic key order. -/
def toRemiEventSequence (music : Music) (res : Nat := 24) :
    Except String (List String) :=
  if music.tracks.flatten.isEmpty then .error "No notes found." else
  if music.barlines.isEmpty then .error "IndexError" else
  if (measureTimesOf music).length ≤ 1 then .error "AssertionError" else
  match mapOrErr (fun bt => withPosition music res (fun _ => ["bar"]) bt)
      (insertZeroBar music.barlines) with
  | .error e => .error e
  | .ok barEvents =>
  match mapOrErr (fun tp => withPosition music res
      (fun _ => ["tempo_" ++ toString (min (209 : Int) (max tp.qpm 30))]) tp.time)
      music.tempos with
  | .error e => .error e
  | .ok tempoEvents =>
  match mapOrErr (fun (n : MNote) => withPosition music res
      (fun _ => ["note_on_" ++ toString n.pitch,
                 "note_velocity_" ++ toString (velocityBucket n.velocity),
                 "note_duration_" ++ toString (min (max n.duration 1) ((res : Int) * 2))])
      n.time)
      (music.tracks.flatten.filter (fun n => decide (0 < n.duration))) with
  | .error e => .error e
  | .ok noteEvents =>
    .ok (serializeRemiEvents
      ((barEvents ++ tempoEvents ++ noteEvents).insertionSort keyLe))

/-! ## Pitch Augmenter
(`transpose_chord` / `check_extreme_pitch` / `transpose_events` /
`REMIFullSongTransformerDataset.pitch_augment`, lines 153-197 and 309-317
of `dataloader.py`) -/

/-- A raw (dict-form) event, as consumed by `transpose_events`: the source
dispatches on `ev['name'] == 'Note_Pitch'`, `ev['name'] == 'Chord'` and
everything else.  A chord value string `"tone_quality"` is embedded as the
pair of its tone (the part before the first underscore, as extracted by
`get_chord_tone`) and the rest. -/
inductive RawEvent where
  | notePitch (v : Int)
  | chord (tone : String) (quality : String)
  | other (name : String) (v : Int)
deriving DecidableEq

/-- Embedding of `IDX_TO_KEY` (lines 18-31 of `dataloader.py`); `KEY_TO_IDX`
is its inverse, i.e. `indexOf?` in this list. -/
def idxToKeyList : List String :=
  ["A", "A#", "B", "C", "C#", "D", "D#", "E", "F", "F#", "G", "G#"]

/-- Embedding of `transpose_chord` (lines 157-170 of `dataloader.py`): the
`'N_N'` no-chord sentinel passes through unchanged; otherwise the tone is
rotated by `n_keys` modulo 12.  An unknown tone raises Python's `KeyError`
(`KEY_TO_IDX[orig_tone]`). -/
def transposeChordE (tone quality : String) (nKeys : Int) :
    Except String RawEvent :=
  if tone = "N" ∧ quality = "N" then .ok (.chord tone quality)
  else
    match idxToKeyList.indexOf? tone with
    | none => .error "KeyError"
    | some ti =>
      .ok (.chord (idxToKeyList.getD ((((ti : Int) + 12 + nKeys) % 12).toNat) "")
                  quality)

/-- Embedding of `check_extreme_pitch` (lines 172-179 of `dataloader.py`):
the running `(low, high)` extremes over `Note_Pitch` events, starting from
`(128, 0)`. -/
def checkExtremePitch (evs : List RawEvent) : Int × Int :=
  evs.foldl (fun lh ev =>
    match ev with
    | .notePitch v => (min lh.1 v, max lh.2 v)
    | _ => lh) (128, 0)

/-- Embedding of `transpose_events` (lines 181-197 of `dataloader.py`):
`Note_Pitch` values are shifted by `n_keys`, chords go through
`transpose_chord`, everything else passes through unchanged. -/
def transposeEventsE (evs : List RawEvent) (nKeys : Int) :
    Except String (List RawEvent) :=
  mapOrErr (fun ev =>
    match ev with
    | .notePitch v => .ok (.notePitch (v + nKeys))
    | .chord tone quality => transposeChordE tone quality nKeys
    | .other n v => .ok (.other n v)) evs

/-- The default `augment_range = range(-6, 7)` of the dataset constructor. -/
def augmentRange : List Int :=
  (List.range 13).map (fun i => (i : Int) - 6)

/-- The exit condition of the rejection loop in `pitch_augment`
(line 313 of `dataloader.py`): the negation of
`bar_min_pitch + n_keys < min_pitch or bar_max_pitch + n_keys > max_pitch`. -/
def shiftFits (minPitch maxPitch lo hi shift : Int) : Bool :=
  decide (minPitch ≤ lo + shift ∧ hi + shift ≤ maxPitch)

/-- The rejection loop of `pitch_augment` (lines 312-314 of `dataloader.py`)
run against an explicit stream of `random.choice` draws: returns the first
draw that passes the pitch-band check, or `none` if the loop is still
running (has rejected every draw) after consuming the whole stream. -/
def pitchAugmentDraws (minPitch maxPitch : Int) (barEvents : List RawEvent)
    (draws : List Int) : Option Int :=
  let lo := (checkExtremePitch barEvents).1
  let hi := (checkExtremePitch barEvents).2
  draws.find? (shiftFits minPitch maxPitch lo hi)

/-! ## Piece boundary normalization
(`REMIFullSongTransformerDataset.build_dataset`, lines 262-275 of
`dataloader.py`) -/

/-- Embedding of the per-piece boundary normalization of `build_dataset`
(lines 266-273 of `dataloader.py`), for a stored boundary list `bp` and a
token sequence of length `n`: drop a trailing boundary equal to `n`, then
drop the boundary of a final bar spanning exactly 2 tokens, then append `n`.
Reading `bar_pos[-1]` of an empty list raises Python's `IndexError`. -/
def normalizeE (bp : List Nat) (n : Nat) : Except String (List Nat) :=
  if bp.isEmpty then .error "IndexError" else
  let bp1 := if bp.getLastD 0 = n then bp.dropLast else bp
  if bp1.isEmpty then .error "IndexError" else
  let bp2 := if n - bp1.getLastD 0 = 2 then bp1.dropLast else bp1
  .ok (bp2 ++ [n])

/-! ## Window Sampler
(`REMIFullSongTransformerDataset.get_sample_from_file`, lines 277-299, and
the boundary append of `__getitem__`, line 371 of `dataloader.py`) -/

/-- The value bundle returned by `get_sample_from_file`: the window's event
(token) sub-sequence, the picked start bar, the window-local boundary list,
and `n_bars`. -/
structure Sample where
  evs : List Nat
  stBar : Nat
  barPos : List Nat
  nBars : Nat
deriving DecidableEq

/-- Embedding of `get_sample_from_file` (lines 277-299 of `dataloader.py`)
for one piece, as a pure function of the piece's normalized boundary list
`bpAll`, its token sequence `evs`, `model_max_bars`, the constructor's
`appoint_st_bar`, and the `random.choice` draw (an element of
`range(len(bar_pos) - model_max_bars)`, used only on the random branch). -/
def getSampleFromFile (bpAll : List Nat) (evs : List Nat) (maxBars : Nat)
    (appoint : Option Nat) (draw : Nat) : Sample :=
  let st :=
    if bpAll.length > maxBars ∧ appoint = none then draw
    else
      match appoint with
      | some a => if a + maxBars < bpAll.length then a else 0
      | none => 0
  if bpAll.length > maxBars then
    let base := bpAll.getD st 0
    { evs := (evs.drop base).take (bpAll.getD (st + maxBars) 0 - base),
      stBar := st,
      barPos := ((bpAll.drop st).take maxBars).map (fun b => b - base),
      nBars := maxBars }
  else
    { evs := evs,
      stBar := st,
      barPos := bpAll ++ List.replicate (maxBars - bpAll.length) (bpAll.getLast?.getD 0),
      nBars := bpAll.length }

/-- The boundary list handed to `get_encoder_input_data` by `__getitem__`
(line 371 of `dataloader.py`): the sampled window boundaries with the
window's token count appended.  `convert_event` and `pitch_augment` both
preserve the event-list length, so `len(bar_tokens)` is the length of the
window's event list. -/
def getitemBarPos (s : Sample) : List Nat :=
  s.barPos ++ [s.evs.length]

/-! ## Tensor Builder
(`REMIFullSongTransformerDataset.pad_sequence` and
`get_encoder_input_data`, lines 301-346 of `dataloader.py`) -/

/-- Embedding of `pad_sequence` (lines 301-307 of `dataloader.py`): extend
with the pad value up to `maxlen` (a no-op when the sequence is already at
least that long). -/
def padSequence (seq : List Nat) (maxlen : Nat) (pad : Nat) : List Nat :=
  seq ++ List.replicate (maxlen - seq.length) pad

/-- The three arrays built by `get_encoder_input_data`: the per-bar encoder
input rows, the boolean padding mask (`true` = padded), and the per-bar true
lengths. -/
structure EncData where
  encInput : List (List Nat)
  encMask : List (List Bool)
  encLens : List Nat
deriving DecidableEq

/-- Embedding of the loop body of `get_encoder_input_data` (lines 333-346 of
`dataloader.py`).  Each bar `b` pairs consecutive boundaries `(st, ed)`;
its mask row is unmasked (`false`) on the first two columns and on the
first `ed - st` columns, its input row is the token slice right-padded with
the pad code and truncated to `encLen`, and its recorded length is
`ed - st`.  The `model_max_bars × model_enc_seqlen` allocation is recovered
because the boundary list has exactly `model_max_bars + 1` entries (the
assert, kept in `getEncoderInputDataChecked`). -/
def getEncoderInputData (encLen pad : Nat) (barPositions : List Nat)
    (barEvents : List Nat) : EncData :=
  let pairs := barPositions.zip barPositions.tail
  { encInput := pairs.map (fun p =>
      (padSequence ((barEvents.drop p.1).take (p.2 - p.1)) encLen pad).take encLen),
    encMask := pairs.map (fun p =>
      (List.range encLen).map (fun j => decide (2 ≤ j ∧ p.2 - p.1 ≤ j))),
    encLens := pairs.map (fun p => p.2 - p.1) }

/-- `get_encoder_input_data` including its entry assertion
`assert len(bar_positions) == self.model_max_bars + 1` (line 332 of
`dataloader.py`): `none` models the `AssertionError`. -/
def getEncoderInputDataChecked (maxBars encLen pad : Nat)
    (barPositions : List Nat) (barEvents : List Nat) : Option EncData :=
  if barPositions.length = maxBars + 1 then
    some (getEncoderInputData encLen pad barPositions barEvents)
  else
    none

/-! ## Attribute-label expansion (`__getitem__`, lines 359-365 of
`dataloader.py`) -/

/-- Writes `v` into positions `[st, ed)` of `arr`, starting the index count
at `j`: the embedding of the numpy slice assignment `arr[st:ed] = v` (out of
range indices are simply not written, as numpy clamps slices). -/
def setRangeAux (arr : List Nat) (j st ed v : Nat) : List Nat :=
  match arr with
  | [] => []
  | x :: xs => (if st ≤ j ∧ j < ed then v else x) :: setRangeAux xs (j + 1) st ed v

/-- `arr[st:ed] = v` on a numpy integer vector. -/
def setRange (arr : List Nat) (st ed v : Nat) : List Nat :=
  setRangeAux arr 0 st ed v

/-- Embedding of the attribute-class expansion loop of `__getitem__`
(lines 361-365 of `dataloader.py`): starting from an all-zero array of
length `decLen`, broadcast `cls[i]` over `[bar_pos[i], bar_pos[i+1])` for
each consecutive pair of entries of `bar_pos` (which at this point in
`__getitem__` is the window boundary list before the token count is
appended). -/
def expandAttrCls (decLen : Nat) (barPos : List Nat) (cls : List Nat) :
    List Nat :=
  ((barPos.zip barPos.tail).zip cls).foldl
    (fun arr t => setRange arr t.1.1 t.1.2 t.2)
    (List.replicate decLen 0)

/-! ## Concrete instances used by counterexamples and witnesses -/

/-- A music object whose only note has duration `0`: non-empty before the
duration filter, empty after it. -/
def musicZeroDur : Music :=
  { tracks := [[{ time := 0, pitch := 60, duration := 0, velocity := 100 }]],
    tempos := [],
    barlines := [0, 24] }

/-- A small window of dict-form events for the augmenter. -/
def augEvsIn : List RawEvent :=
  [.notePitch 60, .chord "N" "N", .chord "C" "M", .other "Beat" 3]

/-- `transpose_events augEvsIn 2`. -/
def augEvsOut : List RawEvent :=
  [.notePitch 62, .chord "N" "N", .chord "D" "M", .other "Beat" 3]

/-! ## Helper lemmas -/

theorem searchsortedRight_le_length (xs : List Nat) (t : Nat) :
    searchsortedRight xs t ≤ xs.length :=
  List.countP_le_length _

/-- In a strictly sorted list, `searchsortedRight` counts exactly the
entries `≤ t`, and they form a downward-closed block of indices. -/
theorem sorted_getD_le_iff {ms : List Nat} (hms : List.Sorted (· < ·) ms) (t : Nat) :
    ∀ j, j < ms.length → (ms.getD j 0 ≤ t ↔ j < searchsortedRight ms t) := by
  induction ms with
  | nil => intro j hj; simp at hj
  | cons x xs ih =>
    have hx : ∀ y ∈ xs, x < y := (List.pairwise_cons.mp hms).1
    have hxs : List.Sorted (· < ·) xs := (List.pairwise_cons.mp hms).2
    intro j hj
    by_cases hxt : x ≤ t
    · have hcount : searchsortedRight (x :: xs) t = searchsortedRight xs t + 1 := by
        simp [searchsortedRight, List.countP_cons, hxt]
      cases j with
      | zero => simp [hcount, List.getD_cons_zero, hxt]
      | succ j =>
        have hrec := ih hxs j (by simpa using hj)
        rw [hcount, List.getD_cons_succ]
        omega
    · have hcount : searchsortedRight (x :: xs) t = 0 := by
        rw [searchsortedRight, List.countP_eq_zero]
        intro a ha
        simp only [List.mem_cons] at ha
        rcases ha with rfl | ha
        · simpa using hxt
        · have := hx a ha
          simp only [decide_eq_true_eq]
          omega
      cases j with
      | zero =>
        simp only [List.getD_cons_zero, hcount]
        omega
      | succ j =>
        have hjlt : j < xs.length := by simpa using hj
        have hmem : xs.getD j 0 ∈ xs := by
          rw [List.getD_eq_getElem xs 0 hjlt]
          exact List.getElem_mem hjlt
        have := hx _ hmem
        rw [List.getD_cons_succ, hcount]
        omega

/-- With `0` in the list, the searchsorted count is at least one. -/
theorem searchsortedRight_pos {ms : List Nat} (h0 : (0 : Nat) ∈ ms) (t : Nat) :
    0 < searchsortedRight ms t := by
  rw [searchsortedRight, List.countP_pos_iff]
  exact ⟨0, h0, by simp⟩

/-- The quantized measure index is a valid index. -/
theorem measureIdx_lt_length {ms : List Nat} (h0 : (0 : Nat) ∈ ms) (t : Nat) :
    measureIdx ms t < ms.length := by
  have h1 := searchsortedRight_pos h0 t
  have h2 := searchsortedRight_le_length ms t
  have h3 : 0 < ms.length := List.length_pos.mpr (by rintro rfl; simp at h0)
  rw [measureIdx]
  omega

/-- The boundary at the measure index is at or before the query time. -/
theorem measureIdx_le {ms : List Nat} (hms : List.Sorted (· < ·) ms)
    (h0 : (0 : Nat) ∈ ms) (t : Nat) : ms.getD (measureIdx ms t) 0 ≤ t := by
  have h1 := searchsortedRight_pos h0 t
  have hlt := measureIdx_lt_length h0 t
  exact (sorted_getD_le_iff hms t _ hlt).mpr (by rw [measureIdx]; omega)

/-- The measure index is the greatest index whose boundary is `≤ t`. -/
theorem measureIdx_greatest {ms : List Nat} (hms : List.Sorted (· < ·) ms)
    (t : Nat) : ∀ j, j < ms.length → ms.getD j 0 ≤ t → j ≤ measureIdx ms t := by
  intro j hj hle
  have := (sorted_getD_le_iff hms t j hj).mp hle
  rw [measureIdx]
  omega

/-- Adjacent entries of a strictly sorted list are strictly increasing. -/
theorem sorted_getD_lt_getD {ms : List Nat} (hms : List.Sorted (· < ·) ms)
    (i j : Nat) (hij : i < j) (hj : j < ms.length) :
    ms.getD i 0 < ms.getD j 0 := by
  have hi : i < ms.length := lt_trans hij hj
  rw [List.getD_eq_getElem ms 0 hi, List.getD_eq_getElem ms 0 hj]
  exact @List.Sorted.rel_get_of_lt _ _ _ hms ⟨i, hi⟩ ⟨j, hj⟩ hij

/-- The measure length used by the quantizer is positive on strictly sorted
boundary tables with at least two entries containing time `0`. -/
theorem measureLength_pos {ms : List Nat} (hms : List.Sorted (· < ·) ms)
    (h0 : (0 : Nat) ∈ ms) (hlen : 2 ≤ ms.length) (t : Nat) :
    0 < measureLength ms t := by
  have hlt := measureIdx_lt_length h0 t
  rw [measureLength]
  by_cases hcase : measureIdx ms t < ms.length - 1
  · rw [if_pos hcase]
    have := sorted_getD_lt_getD hms (measureIdx ms t)
      (measureIdx ms t + 1) (by omega) (by omega)
    omega
  · rw [if_neg hcase]
    have hi : measureIdx ms t = ms.length - 1 := by omega
    have := sorted_getD_lt_getD hms (measureIdx ms t - 1)
      (measureIdx ms t) (by omega) hlt
    omega

/-- `ceilDiv a b` is the exact integer ceiling of `a / b`: the least `k`
with `a ≤ b * k`. -/
theorem ceilDiv_spec (a b : Nat) (hb : 0 < b) :
    a ≤ b * ceilDiv a b ∧ b * ceilDiv a b < a + b := by
  have hdm := Nat.div_add_mod (a + b - 1) b
  have hmod : (a + b - 1) % b < b := Nat.mod_lt _ hb
  rw [ceilDiv]
  omega

/-- The guarded quantizer succeeds on well-formed boundary tables. -/
theorem getMeasurePositionE_ok {ms : List Nat} (hms : List.Sorted (· < ·) ms)
    (h0 : (0 : Nat) ∈ ms) (hlen : 2 ≤ ms.length) (res t : Nat) :
    getMeasurePositionE res ms t = .ok (getMeasurePosition res ms t) := by
  have := measureLength_pos hms h0 hlen t
  rw [getMeasurePositionE, if_neg (by omega)]

/-! ## Claim C1 -/

/-- Claim C1: for every timestamp `t` and a sorted measure-boundary table
(containing the time-`0` boundary), the quantizer's `measure_idx` is
`searchsorted(boundaries, t, side="right") - 1` — the greatest index whose
boundary is `≤ t`; the measure length is the distance to the next boundary,
except for the last measure, which reuses the distance from the previous
boundary; and the intra-bar position is
`ceil(res * (t - boundaries[measure_idx]) / measure_length) mod res`, with
the ceiling (characterized exactly in the final conjunct) applied before
the modulo. -/
theorem measure_position_quantizer_spec (res : Nat) (ms : List Nat) (t : Nat)
    (hms : List.Sorted (· < ·) ms) (h0 : (0 : Nat) ∈ ms)
    (hlen : 2 ≤ ms.length) :
    measureIdx ms t = searchsortedRight ms t - 1
    ∧ measureIdx ms t < ms.length
    ∧ ms.getD (measureIdx ms t) 0 ≤ t
    ∧ (∀ j, j < ms.length → ms.getD j 0 ≤ t → j ≤ measureIdx ms t)
    ∧ measureLength ms t =
        (if measureIdx ms t < ms.length - 1 then
          ms.getD (measureIdx ms t + 1) 0 - ms.getD (measureIdx ms t) 0
        else
          ms.getD (measureIdx ms t) 0 - ms.getD (measureIdx ms t - 1) 0)
    ∧ 0 < measureLength ms t
    ∧ getMeasurePosition res ms t
        = (measureIdx ms t,
           ceilDiv (res * (t - ms.getD (measureIdx ms t) 0))
             (measureLength ms t) % res)
    ∧ (∀ a b : Nat, 0 < b → a ≤ b * ceilDiv a b ∧ b * ceilDiv a b < a + b) :=
  ⟨rfl, measureIdx_lt_length h0 t, measureIdx_le hms h0 t,
   measureIdx_greatest hms t, rfl, measureLength_pos hms h0 hlen t, rfl,
   fun a b hb => ceilDiv_spec a b hb⟩

/-- Witness for C1 at the boundary table `[0, 24, 48]`, `t = 30`,
`res = 24`: a strictly-sorted table on which all hypotheses hold, with the
quantizer evaluated concretely. -/
theorem measure_position_quantizer_spec_check :
    getMeasurePosition 24 [0, 24, 48] 30 = (1, 6)
    ∧ 0 < measureLength [0, 24, 48] 30 := by
  have h := measure_position_quantizer_spec 24 [0, 24, 48] 30
    (by decide) (by decide) (by decide)
  exact ⟨by decide, h.2.2.2.2.2.1⟩

/-! ## Claim C2 -/

/-- Claim C2: the vocabulary indexer enumerates the event ids in the fixed
order bar, eos, 128 note-on ids, 64 note-duration ids (1..64), 32
note-velocity ids (0..31), 24 position ids (0..23), 180 tempo ids
(30..209), assigning consecutive integer codes starting at 0 (the map to
the closed-form codes is exactly `range 430`); the mapping is a bijection
of size `V = 2 + 128 + 64 + 32 + 24 + 180 = 430`; and for every code in
`[0, V)`, decoding then re-encoding returns the original code. -/
theorem remi_indexer_bijection :
    remiEventIds.length = 430
    ∧ remiEventIds.map remiClosedFormCode = List.range 430
    ∧ remiEventStrings.getD 0 "" = "bar"
    ∧ remiEventStrings.getD 1 "" = "eos"
    ∧ remiEventStrings.getD 2 "" = "note_on_0"
    ∧ remiEventStrings.getD 429 "" = "tempo_209"
    ∧ (∀ i, i < 128 → remiEventIds.getD (2 + i) .bar = .noteOn i)
    ∧ (∀ i, i < 64 → remiEventIds.getD (130 + i) .bar = .noteDuration (i + 1))
    ∧ (∀ i, i < 32 → remiEventIds.getD (194 + i) .bar = .noteVelocity i)
    ∧ (∀ i, i < 24 → remiEventIds.getD (226 + i) .bar = .pos i)
    ∧ (∀ i, i < 180 → remiEventIds.getD (250 + i) .bar = .tempo (i + 30))
    ∧ remiEventIds.Nodup
    ∧ (∀ c, c < 430 → remiEncode (remiDecode c) = c) := by
  have hlen : remiEventIds.length = 430 := by decide
  have hmap : remiEventIds.map remiClosedFormCode = List.range 430 := by decide
  have hnodup : remiEventIds.Nodup := by
    have hrange : (remiEventIds.map remiClosedFormCode).Nodup := by
      rw [hmap]; exact List.nodup_range 430
    exact List.Nodup.of_map _ hrange
  refine ⟨hlen, hmap, by decide, by decide, by decide, by decide, by decide,
    by decide, by decide, by decide, by decide, hnodup, ?_⟩
  intro c hc
  have hc' : c < remiEventIds.length := by omega
  rw [remiDecode, remiEncode, List.getD_eq_getElem _ _ hc']
  exact List.indexOf_getElem hnodup c hc'

/-- Witness for C2: the decode-then-encode roundtrip at the concrete code
137 (a note-duration id). -/
theorem remi_indexer_bijection_check :
    remiEncode (remiDecode 137) = 137 := by
  have h := remi_indexer_bijection
  exact h.2.2.2.2.2.2.2.2.2.2.2.2 137 (by decide)

/-! ## Claim C3 -/

/-- Counterexample to C3: a normalized one-bar piece (boundaries `[0, 5]`,
5 tokens, so exactly one real bar) under `model_max_bars = 16`.  The
window contains one real (non-padded) bar, but `n_bars` is
`len(piece_bar_pos) = 2`, not 1: `n_bars` counts the non-padded boundary
entries, which is one more than the number of real bars. -/
theorem window_sampler_nbars_cex :
    (getSampleFromFile [0, 5] (List.range 5) 16 none 0).nBars = 2
    ∧ getitemBarPos (getSampleFromFile [0, 5] (List.range 5) 16 none 0)
        = [0, 5, 5, 5, 5, 5, 5, 5, 5, 5, 5, 5, 5, 5, 5, 5, 5]
    ∧ ([0, 5] : List Nat).length - 1 = 1
    ∧ (getSampleFromFile [0, 5] (List.range 5) 16 none 0).nBars
        ≠ ([0, 5] : List Nat).length - 1 := by
  decide

/-- Claim C3 as amended: for every piece whose normalized boundary list has
at most `model_max_bars` entries (i.e. fewer than `model_max_bars` real
bars) and every draw and appointed start, the window starts at bar 0, the
boundary list delivered by `__getitem__` is right-padded by repeating the
final boundary until it has `model_max_bars + 1` entries, and `n_bars`
equals the number of non-padded boundary entries — the number of real bars
plus one (not the number of real bars, as originally claimed); for a piece
with exactly `model_max_bars` bars (`model_max_bars + 1` boundary entries)
the window starts at bar 0 with `n_bars = model_max_bars` and no padded
boundaries. -/
theorem window_sampler_pad_amended (bp evs : List Nat) (maxBars draw : Nat)
    (appoint : Option Nat) (hne : bp ≠ []) (hzero : bp.head? = some 0)
    (hlast : bp.getLast? = some evs.length) :
    (bp.length ≤ maxBars →
      (getSampleFromFile bp evs maxBars appoint draw).stBar = 0
      ∧ (getSampleFromFile bp evs maxBars appoint draw).nBars = bp.length
      ∧ (getSampleFromFile bp evs maxBars appoint draw).evs = evs
      ∧ getitemBarPos (getSampleFromFile bp evs maxBars appoint draw)
          = bp ++ List.replicate (maxBars + 1 - bp.length) evs.length
      ∧ (getitemBarPos (getSampleFromFile bp evs maxBars appoint draw)).length
          = maxBars + 1)
    ∧ (bp.length = maxBars + 1 →
      (getSampleFromFile bp evs maxBars none 0).stBar = 0
      ∧ (getSampleFromFile bp evs maxBars none 0).nBars = maxBars
      ∧ getitemBarPos (getSampleFromFile bp evs maxBars none 0) = bp) := by
  constructor
  · intro hle
    have hngt : ¬ bp.length > maxBars := by omega
    have hlastD : bp.getLast?.getD 0 = evs.length := by rw [hlast]; rfl
    have hs : getSampleFromFile bp evs maxBars appoint draw =
        { evs := evs, stBar := 0,
          barPos := bp ++ List.replicate (maxBars - bp.length) evs.length,
          nBars := bp.length } := by
      cases appoint with
      | none => simp [getSampleFromFile, hngt, hlastD]
      | some a =>
        have hna : ¬ a + maxBars < bp.length := by omega
        simp [getSampleFromFile, hngt, hna, hlastD]
    have hrep : maxBars + 1 - bp.length = (maxBars - bp.length) + 1 := by omega
    refine ⟨by rw [hs], by rw [hs], by rw [hs], ?_, ?_⟩
    · rw [getitemBarPos, hs]
      show bp ++ List.replicate (maxBars - bp.length) evs.length ++ [evs.length]
          = bp ++ List.replicate (maxBars + 1 - bp.length) evs.length
      rw [hrep, List.replicate_succ', List.append_assoc]
    · rw [getitemBarPos, hs]
      simp only [List.length_append, List.length_replicate, List.length_cons,
        List.length_nil]
      omega
  · intro heq
    have hgt : bp.length > maxBars := by omega
    have h0 : bp.getD 0 0 = 0 := by
      cases bp with
      | nil => simp at hzero
      | cons a l =>
        simp only [List.head?_cons, Option.some_inj] at hzero
        simp [hzero]
    have hlastIdx : bp.getD maxBars 0 = evs.length := by
      rw [List.getD_eq_getElem?_getD]
      have : maxBars = bp.length - 1 := by omega
      rw [this, ← List.getLast?_eq_getElem?, hlast]
      rfl
    have hs : getSampleFromFile bp evs maxBars none 0 =
        { evs := evs, stBar := 0, barPos := bp.take maxBars,
          nBars := maxBars } := by
      simp only [getSampleFromFile, ite_self]
      rw [if_pos hgt, h0, zero_add, hlastIdx]
      simp [List.drop_zero, Nat.sub_zero, List.take_length, List.map_id']
    have htake : bp.take maxBars = bp.dropLast := by
      rw [List.dropLast_eq_take]
      congr 1
      omega
    refine ⟨by rw [hs], by rw [hs], ?_⟩
    rw [getitemBarPos, hs]
    show bp.take maxBars ++ [evs.length] = bp
    rw [htake]
    have hgl : bp.getLast hne = evs.length := by
      have := List.getLast?_eq_getLast bp hne
      rw [hlast] at this
      exact (Option.some_inj.mp this).symm
    rw [← hgl, List.dropLast_append_getLast]

/-- Witness for C3 (amended) at the three-entry boundary list `[0, 3, 7]`
(a two-bar piece), seven tokens, `model_max_bars = 4`. -/
theorem window_sampler_pad_amended_check :
    (getSampleFromFile [0, 3, 7] (List.range 7) 4 none 0).stBar = 0
    ∧ (getSampleFromFile [0, 3, 7] (List.range 7) 4 none 0).nBars = 3
    ∧ getitemBarPos (getSampleFromFile [0, 3, 7] (List.range 7) 4 none 0)
        = [0, 3, 7, 7, 7] := by
  have h := (window_sampler_pad_amended [0, 3, 7] (List.range 7) 4 0 none
    (by decide) (by decide) (by decide)).1 (by decide)
  refine ⟨h.1, h.2.1, ?_⟩
  rw [h.2.2.2.1]
  decide

/-! ## Claim C4 -/

theorem mapOrErr_ok_of_forall {α β : Type} (f : α → Except String β)
    (l : List α) (h : ∀ a ∈ l, ∃ b, f a = .ok b) :
    ∃ bs, mapOrErr f l = .ok bs := by
  induction l with
  | nil => exact ⟨[], rfl⟩
  | cons a as ih =>
    obtain ⟨b, hb⟩ := h a (by simp)
    obtain ⟨bs, hbs⟩ := ih (fun x hx => h x (by simp [hx]))
    exact ⟨b :: bs, by rw [mapOrErr, hb, hbs]⟩

/-- The sorted measure-time table always contains time 0 when the piece has
any barline: the source inserts the 0 boundary when it is absent. -/
theorem zero_mem_measureTimesOf {m : Music} (hbar : m.barlines ≠ []) :
    (0 : Nat) ∈ measureTimesOf m := by
  rw [measureTimesOf]
  rw [(List.perm_insertionSort _ _).mem_iff]
  rw [insertZeroBar]
  by_cases h : m.barlines.headD 0 ≠ 0
  · rw [if_pos h]
    exact List.mem_cons_self 0 _
  · rw [if_neg h]
    push_neg at h
    cases hb : m.barlines with
    | nil => exact absurd hb hbar
    | cons b bs =>
      rw [hb] at h
      simp only [List.headD_cons] at h
      rw [← h]
      exact List.mem_cons_self b bs

/-- On a well-formed measure table, the quantization step of `withPosition`
never raises. -/
theorem withPosition_ok {music : Music} {res : Nat}
    (hsorted : List.Sorted (· < ·) (measureTimesOf music))
    (h0 : (0 : Nat) ∈ measureTimesOf music)
    (hlen2 : 2 ≤ (measureTimesOf music).length)
    (mk : Nat × Nat → List String) (t : Nat) :
    withPosition music res mk t
      = .ok (getMeasurePosition res (measureTimesOf music) t,
             mk (getMeasurePosition res (measureTimesOf music) t)) := by
  rw [withPosition, getMeasurePositionE_ok hsorted h0 hlen2]
  rfl

/-- Counterexample to C4: a music object with one note of duration 0 and
barlines `[0, 24]`.  Its note set is empty *after* duration filtering, yet
`to_remi_event_sequence` does not raise — it returns the bar/eos skeleton.
The raise happens iff the note set is empty *before* filtering. -/
theorem encoder_raise_cex :
    toRemiEventSequence musicZeroDur 24 = .ok ["bar", "bar", "eos"]
    ∧ musicZeroDur.tracks.flatten.filter (fun n => decide (0 < n.duration)) = [] := by
  exact ⟨rfl, by decide⟩

/-- Claim C4 as amended: for a music object with a well-formed barline
table (non-empty, with a strictly sorted measure table of at least two
entries), `to_remi_event_sequence` succeeds if and only if the music object
contains at least one note *before* duration filtering; notes with
non-positive duration are silently dropped, so a music object whose notes
all have non-positive duration encodes successfully (it is not the fatal
failure the original claim describes). -/
theorem encoder_raise_iff (m : Music) (res : Nat)
    (hbar : m.barlines ≠ [])
    (hsorted : List.Sorted (· < ·) (measureTimesOf m))
    (hlen2 : 2 ≤ (measureTimesOf m).length) :
    (∃ out, toRemiEventSequence m res = Except.ok out)
      ↔ m.tracks.flatten ≠ [] := by
  constructor
  · rintro ⟨out, hout⟩ hnil
    rw [toRemiEventSequence.eq_def, hnil] at hout
    simp at hout
  · intro hnotes
    have hniE : m.tracks.flatten.isEmpty = false := by
      cases h : m.tracks.flatten with
      | nil => exact absurd h hnotes
      | cons a l => rfl
    have hbiE : m.barlines.isEmpty = false := by
      cases h : m.barlines with
      | nil => exact absurd h hbar
      | cons a l => rfl
    have h0mem : (0 : Nat) ∈ measureTimesOf m := zero_mem_measureTimesOf hbar
    obtain ⟨l1, h1⟩ := mapOrErr_ok_of_forall
      (fun bt => withPosition m res (fun _ => ["bar"]) bt)
      (insertZeroBar m.barlines)
      (fun bt _ => ⟨_, withPosition_ok hsorted h0mem hlen2 _ bt⟩)
    obtain ⟨l2, h2⟩ := mapOrErr_ok_of_forall
      (fun tp => withPosition m res
        (fun _ => ["tempo_" ++ toString (min (209 : Int) (max tp.qpm 30))]) tp.time)
      m.tempos
      (fun tp _ => ⟨_, withPosition_ok hsorted h0mem hlen2 _ tp.time⟩)
    obtain ⟨l3, h3⟩ := mapOrErr_ok_of_forall
      (fun (n : MNote) => withPosition m res
        (fun _ => ["note_on_" ++ toString n.pitch,
                   "note_velocity_" ++ toString (velocityBucket n.velocity),
                   "note_duration_" ++ toString (min (max n.duration 1) ((res : Int) * 2))])
        n.time)
      (m.tracks.flatten.filter (fun n => decide (0 < n.duration)))
      (fun n _ => ⟨_, withPosition_ok hsorted h0mem hlen2 _ n.time⟩)
    rw [toRemiEventSequence.eq_def, hniE, hbiE]
    rw [if_neg (show ¬((measureTimesOf m).length ≤ 1) by omega)]
    rw [h1, h2, h3]
    exact ⟨_, rfl⟩

/-- Witness for C4 (amended) at `musicZeroDur`: hypotheses hold concretely
and the encoder succeeds because the (pre-filter) note set is non-empty. -/
theorem encoder_raise_iff_check :
    ∃ out, toRemiEventSequence musicZeroDur 24 = Except.ok out := by
  exact (encoder_raise_iff musicZeroDur 24 (by decide) (by decide)
    (by decide)).mpr (by decide)

/-! ## Claim C5 -/

/-- Claim C5 (refuted, code bug): `pitch_augment` does not detect an
infeasible pitch band.  For a window containing pitches 0 and 127 with the
default band `[22, 107]` and range `-6..6`, no candidate shift passes the
check, so the rejection loop (lines 313-314 of `dataloader.py`) rejects
every draw: after consuming any finite stream of draws from the configured
range the loop is still running — it never raises, never skips, and never
terminates. -/
theorem pitch_augment_infeasible_diverges :
    (∀ d ∈ augmentRange,
      shiftFits 22 107 (checkExtremePitch [.notePitch 0, .notePitch 127]).1
        (checkExtremePitch [.notePitch 0, .notePitch 127]).2 d = false)
    ∧ ∀ draws : List Int, (∀ d ∈ draws, d ∈ augmentRange) →
        pitchAugmentDraws 22 107 [.notePitch 0, .notePitch 127] draws = none := by
  have hall : ∀ d ∈ augmentRange,
      shiftFits 22 107 (checkExtremePitch [.notePitch 0, .notePitch 127]).1
        (checkExtremePitch [.notePitch 0, .notePitch 127]).2 d = false := by
    decide
  refine ⟨hall, fun draws hdraws => ?_⟩
  rw [pitchAugmentDraws]
  exact List.find?_eq_none.mpr (fun d hd => by rw [hall d (hdraws d hd)]; simp)

/-- Witness for C5: three concrete loop iterations with draws `0, -6, 6`
all rejected. -/
theorem pitch_augment_infeasible_diverges_check :
    pitchAugmentDraws 22 107 [.notePitch 0, .notePitch 127] [0, -6, 6] = none := by
  exact pitch_augment_infeasible_diverges.2 [0, -6, 6] (by decide)

/-! ## Claim C6 -/

/-- The extremes fold can only shrink its lower accumulator and grow its
upper one, and it bounds every `Note_Pitch` value in the list. -/
theorem checkExtremePitch_fold_bounds :
    ∀ (evs : List RawEvent) (lo hi : Int),
      (evs.foldl (fun lh ev =>
        match ev with
        | .notePitch v => (min lh.1 v, max lh.2 v)
        | _ => lh) (lo, hi)).1 ≤ lo
      ∧ hi ≤ (evs.foldl (fun lh ev =>
        match ev with
        | .notePitch v => (min lh.1 v, max lh.2 v)
        | _ => lh) (lo, hi)).2
      ∧ ∀ p : Int, RawEvent.notePitch p ∈ evs →
          (evs.foldl (fun lh ev =>
            match ev with
            | .notePitch v => (min lh.1 v, max lh.2 v)
            | _ => lh) (lo, hi)).1 ≤ p
          ∧ p ≤ (evs.foldl (fun lh ev =>
            match ev with
            | .notePitch v => (min lh.1 v, max lh.2 v)
            | _ => lh) (lo, hi)).2 := by
  intro evs
  induction evs with
  | nil => intro lo hi; exact ⟨le_refl lo, le_refl hi, fun p hp => by simp at hp⟩
  | cons ev rest ih =>
    intro lo hi
    cases ev with
    | notePitch v =>
      have h := ih (min lo v) (max hi v)
      refine ⟨le_trans h.1 (min_le_left lo v),
        le_trans (le_max_left hi v) h.2.1, fun p hp => ?_⟩
      rcases List.mem_cons.mp hp with heq | hmem
      · have h' : p = v := by injection heq
        subst h'
        exact ⟨le_trans h.1 (min_le_right lo p),
          le_trans (le_max_right hi p) h.2.1⟩
      · exact h.2.2 p hmem
    | chord tone quality =>
      have h := ih lo hi
      exact ⟨h.1, h.2.1, fun p hp => by
        rcases List.mem_cons.mp hp with heq | hmem
        · exact absurd heq (by intro hh; cases hh)
        · exact h.2.2 p hmem⟩
    | other nm v =>
      have h := ih lo hi
      exact ⟨h.1, h.2.1, fun p hp => by
        rcases List.mem_cons.mp hp with heq | hmem
        · exact absurd heq (by intro hh; cases hh)
        · exact h.2.2 p hmem⟩

/-- Every `Note_Pitch` value lies between the extremes reported by
`check_extreme_pitch`. -/
theorem checkExtremePitch_bounds {evs : List RawEvent} {p : Int}
    (hp : RawEvent.notePitch p ∈ evs) :
    (checkExtremePitch evs).1 ≤ p ∧ p ≤ (checkExtremePitch evs).2 :=
  (checkExtremePitch_fold_bounds evs 128 0).2.2 p hp

/-- A successful `transpose_events` run maps the events pairwise: pitches
are shifted, the `'N_N'` sentinel is unchanged, chords stay chords, and
everything else is unchanged. -/
theorem transposeEventsE_pairwise {evs out : List RawEvent} {k : Int}
    (hok : transposeEventsE evs k = .ok out) :
    out.length = evs.length
    ∧ ∀ pr ∈ evs.zip out,
        (∀ p : Int, pr.1 = .notePitch p → pr.2 = .notePitch (p + k))
        ∧ (pr.1 = .chord "N" "N" → pr.2 = pr.1)
        ∧ (∀ tone quality, pr.1 = .chord tone quality →
            ∃ t' q', pr.2 = .chord t' q')
        ∧ (∀ nm v, pr.1 = .other nm v → pr.2 = pr.1) := by
  induction evs generalizing out with
  | nil =>
    simp only [transposeEventsE, mapOrErr] at hok
    obtain rfl : out = [] := by injection hok with h; exact h.symm
    exact ⟨rfl, fun pr hpr => by simp at hpr⟩
  | cons ev rest ih =>
    simp only [transposeEventsE, mapOrErr] at hok
    cases hev : (match ev with
      | .notePitch v => Except.ok (RawEvent.notePitch (v + k))
      | .chord tone quality => transposeChordE tone quality k
      | .other n v => Except.ok (RawEvent.other n v)) with
    | error e => rw [hev] at hok; cases hok
    | ok b =>
      rw [hev] at hok
      cases hrest : mapOrErr (fun ev =>
          match ev with
          | .notePitch v => Except.ok (RawEvent.notePitch (v + k))
          | .chord tone quality => transposeChordE tone quality k
          | .other n v => Except.ok (RawEvent.other n v)) rest with
      | error e => rw [hrest] at hok; cases hok
      | ok bs =>
        rw [hrest] at hok
        obtain rfl : out = b :: bs := by injection hok with h; exact h.symm
        have htail := ih (show transposeEventsE rest k = .ok bs by
          rw [transposeEventsE]; exact hrest)
        refine ⟨by simp [htail.1], fun pr hpr => ?_⟩
        rcases List.mem_cons.mp hpr with heq | hmem
        · obtain rfl : pr = (ev, b) := heq
          refine ⟨?_, ?_, ?_, ?_⟩
          · intro p hp
            have hp' : ev = RawEvent.notePitch p := hp
            subst hp'
            have hev' : Except.ok (RawEvent.notePitch (p + k)) = Except.ok b := hev
            injection hev' with h
            exact h.symm
          · intro hch
            have hch' : ev = RawEvent.chord "N" "N" := hch
            subst hch'
            have hev' : transposeChordE "N" "N" k = Except.ok b := hev
            rw [transposeChordE, if_pos ⟨rfl, rfl⟩] at hev'
            injection hev' with h
            exact h.symm
          · intro tone quality hch
            have hch' : ev = RawEvent.chord tone quality := hch
            subst hch'
            have hev' : transposeChordE tone quality k = Except.ok b := hev
            rw [transposeChordE] at hev'
            by_cases hnn : tone = "N" ∧ quality = "N"
            · rw [if_pos hnn] at hev'
              injection hev' with h
              exact ⟨tone, quality, h.symm⟩
            · rw [if_neg hnn] at hev'
              cases hidx : idxToKeyList.indexOf? tone with
              | none => rw [hidx] at hev'; cases hev'
              | some ti =>
                rw [hidx] at hev'
                injection hev' with h
                exact ⟨_, quality, h.symm⟩
          · intro nm v hov
            have hov' : ev = RawEvent.other nm v := hov
            subst hov'
            have hev' : Except.ok (RawEvent.other nm v) = Except.ok b := hev
            injection hev' with h
            exact h.symm
        · exact htail.2 pr hmem

/-- Claim C6: whenever `pitch_augment` returns — i.e. a drawn shift `k`
passes the pitch-band check on the window's extreme pitches and
`transpose_events` succeeds — the output has exactly the input's length,
every `Note_Pitch` value of the output lies in `[min_pitch, max_pitch]`,
every chord event with the `'N_N'` no-chord sentinel is unchanged, and
every non-pitch, non-chord event passes through unchanged. -/
theorem transpose_events_invariants (evs out : List RawEvent)
    (k minPitch maxPitch : Int)
    (hfit : shiftFits minPitch maxPitch (checkExtremePitch evs).1
      (checkExtremePitch evs).2 k = true)
    (hok : transposeEventsE evs k = .ok out) :
    out.length = evs.length
    ∧ (∀ p : Int, RawEvent.notePitch p ∈ out → minPitch ≤ p ∧ p ≤ maxPitch)
    ∧ ∀ pr ∈ evs.zip out,
        (∀ p : Int, pr.1 = .notePitch p → pr.2 = .notePitch (p + k))
        ∧ (pr.1 = .chord "N" "N" → pr.2 = pr.1)
        ∧ (∀ nm v, pr.1 = .other nm v → pr.2 = pr.1) := by
  have hpw := transposeEventsE_pairwise hok
  have hband : minPitch ≤ (checkExtremePitch evs).1 + k
      ∧ (checkExtremePitch evs).2 + k ≤ maxPitch := by
    rw [shiftFits] at hfit
    exact of_decide_eq_true hfit
  refine ⟨hpw.1, fun p hp => ?_,
    fun pr hpr => ⟨(hpw.2 pr hpr).1, (hpw.2 pr hpr).2.1, (hpw.2 pr hpr).2.2.2⟩⟩
  obtain ⟨i, hi, hpi⟩ := List.getElem_of_mem hp
  have hil : i < evs.length := by omega
  have hzmem : (evs[i], out[i]) ∈ evs.zip out := by
    have hiz : i < (evs.zip out).length := by
      rw [List.length_zip]
      omega
    have := @List.getElem_zip _ _ evs out i hiz
    rw [← this]
    exact List.getElem_mem hiz
  cases hev : evs[i] with
  | notePitch q =>
    have hout : out[i] = .notePitch (q + k) := (hpw.2 _ hzmem).1 q hev
    have : p = q + k := by
      rw [hpi] at hout
      injection hout
    subst this
    have hq := @checkExtremePitch_bounds evs q
      (by rw [← hev]; exact List.getElem_mem hil)
    omega
  | chord tone quality =>
    exfalso
    obtain ⟨t', q', hshape⟩ := (hpw.2 _ hzmem).2.2.1 tone quality hev
    rw [hpi] at hshape
    cases hshape
  | other nm v =>
    have := (hpw.2 _ hzmem).2.2.2 nm v hev
    rw [hpi, hev] at this
    cases this

/-- Witness for C6: a concrete window with a pitch, the no-chord sentinel,
a real chord and a pass-through event, shifted by 2 within the default
band. -/
theorem transpose_events_invariants_check :
    transposeEventsE augEvsIn 2 = .ok augEvsOut
    ∧ augEvsOut.length = augEvsIn.length := by
  have hok : transposeEventsE augEvsIn 2 = .ok augEvsOut := rfl
  exact ⟨hok,
    (transpose_events_invariants augEvsIn augEvsOut 2 22 107 (by decide) hok).1⟩

/-! ## Claim C7 -/

/-- Row `b` of the three arrays of `get_encoder_input_data`, for a valid
bar index. -/
theorem encData_row (encLen pad : Nat) (barPos tokens : List Nat) (b : Nat)
    (hb1 : b + 1 < barPos.length) :
    (getEncoderInputData encLen pad barPos tokens).encInput.getD b []
      = (padSequence ((tokens.drop (barPos.getD b 0)).take
          (barPos.getD (b + 1) 0 - barPos.getD b 0)) encLen pad).take encLen
    ∧ (getEncoderInputData encLen pad barPos tokens).encMask.getD b []
      = (List.range encLen).map (fun j =>
          decide (2 ≤ j ∧ barPos.getD (b + 1) 0 - barPos.getD b 0 ≤ j))
    ∧ (getEncoderInputData encLen pad barPos tokens).encLens.getD b 0
      = barPos.getD (b + 1) 0 - barPos.getD b 0 := by
  have hb : b < barPos.length := by omega
  have hbz : b < (barPos.zip barPos.tail).length := by
    rw [List.length_zip, List.length_tail]
    omega
  have hpair : (barPos.zip barPos.tail)[b]
      = (barPos[b], barPos[b + 1]) := by
    rw [List.getElem_zip]
    rw [List.getElem_tail]
  have hgb : barPos.getD b 0 = barPos[b] :=
    List.getD_eq_getElem barPos 0 hb
  have hgb1 : barPos.getD (b + 1) 0 = barPos[b + 1] :=
    List.getD_eq_getElem barPos 0 hb1
  refine ⟨?_, ?_, ?_⟩
  · simp only [getEncoderInputData]
    rw [List.getD_eq_getElem _ _ (by rw [List.length_map]; exact hbz)]
    rw [List.getElem_map, hpair, hgb, hgb1]
  · simp only [getEncoderInputData]
    rw [List.getD_eq_getElem _ _ (by rw [List.length_map]; exact hbz)]
    rw [List.getElem_map, hpair, hgb, hgb1]
  · simp only [getEncoderInputData]
    rw [List.getD_eq_getElem _ _ (by rw [List.length_map]; exact hbz)]
    rw [List.getElem_map, hpair, hgb, hgb1]

/-- Claim C7: for every non-decreasing boundary list with exactly
`model_max_bars + 1` entries, `get_encoder_input_data` returns an
encoder-input array and a boolean padding mask of shape exactly
`(model_max_bars, model_enc_seqlen)`; the first two columns of every bar's
mask row are unmasked regardless of the bar's length; and for each bar `b`
of true length `ℓ = end[b] - start[b]`, the first `ℓ` columns (capped at
`model_enc_seqlen`) are unmasked, `enc_lens[b] = ℓ`, and row `b` holds the
bar's token slice right-padded with the pad code and truncated to
`model_enc_seqlen`. -/
theorem encoder_input_shapes (encLen pad maxBars : Nat)
    (barPos tokens : List Nat) (hlen : barPos.length = maxBars + 1)
    (hsort : List.Sorted (· ≤ ·) barPos) (h2 : 2 ≤ encLen) :
    (getEncoderInputData encLen pad barPos tokens).encInput.length = maxBars
    ∧ (getEncoderInputData encLen pad barPos tokens).encMask.length = maxBars
    ∧ (getEncoderInputData encLen pad barPos tokens).encLens.length = maxBars
    ∧ (∀ r ∈ (getEncoderInputData encLen pad barPos tokens).encInput,
        r.length = encLen)
    ∧ (∀ r ∈ (getEncoderInputData encLen pad barPos tokens).encMask,
        r.length = encLen)
    ∧ ∀ b, b < maxBars →
        ((getEncoderInputData encLen pad barPos tokens).encMask.getD b []).getD 0 true
            = false
        ∧ ((getEncoderInputData encLen pad barPos tokens).encMask.getD b []).getD 1 true
            = false
        ∧ (∀ j, j < barPos.getD (b + 1) 0 - barPos.getD b 0 → j < encLen →
            ((getEncoderInputData encLen pad barPos tokens).encMask.getD b []).getD j true
              = false)
        ∧ (getEncoderInputData encLen pad barPos tokens).encLens.getD b 0
            = barPos.getD (b + 1) 0 - barPos.getD b 0
        ∧ (getEncoderInputData encLen pad barPos tokens).encInput.getD b []
            = (padSequence ((tokens.drop (barPos.getD b 0)).take
                (barPos.getD (b + 1) 0 - barPos.getD b 0)) encLen pad).take encLen := by
  have hplen : (barPos.zip barPos.tail).length = maxBars := by
    rw [List.length_zip, List.length_tail, hlen]
    omega
  have hmaskRow : ∀ (j lb : Nat), j < encLen →
      ((List.range encLen).map (fun j =>
        decide (2 ≤ j ∧ lb ≤ j))).getD j true
        = decide (2 ≤ j ∧ lb ≤ j) := by
    intro j lb hj
    rw [List.getD_eq_getElem _ _ (by rw [List.length_map, List.length_range]; omega)]
    rw [List.getElem_map, List.getElem_range]
  refine ⟨?_, ?_, ?_, ?_, ?_, ?_⟩
  · simp only [getEncoderInputData]
    rw [List.length_map, hplen]
  · simp only [getEncoderInputData]
    rw [List.length_map, hplen]
  · simp only [getEncoderInputData]
    rw [List.length_map, hplen]
  · intro r hr
    simp only [getEncoderInputData] at hr
    obtain ⟨p, _, rfl⟩ := List.mem_map.mp hr
    rw [List.length_take, padSequence, List.length_append, List.length_replicate]
    omega
  · intro r hr
    simp only [getEncoderInputData] at hr
    obtain ⟨p, _, rfl⟩ := List.mem_map.mp hr
    rw [List.length_map, List.length_range]
  · intro b hb
    have hrow := encData_row encLen pad barPos tokens b (by omega)
    refine ⟨?_, ?_, ?_, hrow.2.2, hrow.1⟩
    · rw [hrow.2.1, hmaskRow 0 _ (by omega)]
      simp
    · rw [hrow.2.1, hmaskRow 1 _ (by omega)]
      simp
    · intro j hjl hjenc
      rw [hrow.2.1, hmaskRow j _ hjenc]
      simp only [decide_eq_false_iff_not]
      omega

/-- Witness for C7 at boundaries `[0, 2, 5, 5]` (`model_max_bars = 3`),
five tokens, `model_enc_seqlen = 6`, pad code 99. -/
theorem encoder_input_shapes_check :
    (getEncoderInputData 6 99 [0, 2, 5, 5] [10, 11, 12, 13, 14]).encInput.length = 3
    ∧ (getEncoderInputData 6 99 [0, 2, 5, 5] [10, 11, 12, 13, 14]).encLens.getD 1 0 = 3
    ∧ ((getEncoderInputData 6 99 [0, 2, 5, 5] [10, 11, 12, 13, 14]).encMask.getD 2 []).getD 1 true
        = false := by
  have h := encoder_input_shapes 6 99 3 [0, 2, 5, 5] [10, 11, 12, 13, 14]
    (by decide) (by decide) (by decide)
  refine ⟨h.1, ?_, (h.2.2.2.2.2 2 (by decide)).2.1⟩
  have := (h.2.2.2.2.2 1 (by decide)).2.2.2.1
  rw [this]
  decide

/-! ## Claim C8 -/

/-- Counterexample to C8: the already-normalized pair (boundaries `[2]`,
2 tokens) — the normalization output for the stored pair `([0], 2 tokens)`
— does not re-normalize to itself: the second application drops the
trailing `2`, leaving an empty list, and then raises `IndexError` reading
`bar_pos[-1]`. -/
theorem normalize_idempotent_cex :
    normalizeE [0] 2 = .ok [2]
    ∧ normalizeE [2] 2 = .error "IndexError"
    ∧ normalizeE [2] 2 ≠ .ok [2] := by
  refine ⟨rfl, rfl, fun h => ?_⟩
  exact Except.noConfusion
    ((rfl : normalizeE [2] 2 = Except.error "IndexError").symm.trans h)

/-- Claim C8 as amended: boundary normalization is idempotent for every
stored pair with strictly increasing boundaries whose normalization keeps
at least two entries (at least one real bar).  (The original universal
claim fails on degenerate pieces whose normalized boundary list collapses
to the single entry `len(tokens)`.) -/
theorem normalize_idempotent_amended (bp bp' : List Nat) (n : Nat)
    (hsort : List.Sorted (· < ·) bp)
    (hnorm : normalizeE bp n = .ok bp') (hlen : 2 ≤ bp'.length) :
    normalizeE bp' n = .ok bp' := by
  simp only [normalizeE] at hnorm
  by_cases h0 : bp.isEmpty
  · rw [if_pos h0] at hnorm
    exact Except.noConfusion hnorm
  rw [if_neg h0] at hnorm
  by_cases h1 : (if bp.getLastD 0 = n then bp.dropLast else bp).isEmpty
  · rw [if_pos h1] at hnorm
    exact Except.noConfusion hnorm
  rw [if_neg h1] at hnorm
  injection hnorm with hbp'
  subst hbp'
  have hne1 : (if bp.getLastD 0 = n then bp.dropLast else bp) ≠ [] :=
    List.isEmpty_eq_false.mp (Bool.not_eq_true _ ▸ Bool.of_not_eq_true h1)
  have hsort1 : List.Sorted (· < ·)
      (if bp.getLastD 0 = n then bp.dropLast else bp) := by
    by_cases hc : bp.getLastD 0 = n
    · rw [if_pos hc]
      exact List.Pairwise.sublist (List.dropLast_sublist bp) hsort
    · rw [if_neg hc]
      exact hsort
  set bp1 := if bp.getLastD 0 = n then bp.dropLast else bp with hbp1def
  have hl1 : bp1.getLastD 0 = bp1.getLast hne1 := by
    rw [List.getLastD_eq_getLast?, List.getLast?_eq_getLast bp1 hne1]
    rfl
  set bp2 := if n - bp1.getLastD 0 = 2 then bp1.dropLast else bp1 with hbp2def
  have hne2 : bp2 ≠ [] := by
    intro hh
    rw [hh] at hlen
    simp at hlen
  have hkey : n - bp2.getLast hne2 ≠ 2 := by
    by_cases hc2 : n - bp1.getLastD 0 = 2
    · have hbp2 : bp2 = bp1.dropLast := by rw [hbp2def, if_pos hc2]
      have hsplit : bp1.dropLast ++ [bp1.getLast hne1] = bp1 :=
        List.dropLast_append_getLast hne1
      have hlt : bp2.getLast hne2 < bp1.getLast hne1 := by
        have hpw := hsort1
        rw [← hsplit] at hpw
        have hall := (List.pairwise_append.mp hpw).2.2
        have hmem : bp2.getLast hne2 ∈ bp1.dropLast := by
          rw [← hbp2]
          exact List.getLast_mem hne2
        exact hall _ hmem _ (List.mem_singleton_self _)
      rw [hl1] at hc2
      omega
    · have hbp2 : bp2 = bp1 := by rw [hbp2def, if_neg hc2]
      have : bp2.getLast hne2 = bp1.getLast hne1 := by
        congr 1
      rw [this, ← hl1]
      exact hc2
  have hlgd : bp2.getLastD 0 = bp2.getLast hne2 := by
    rw [List.getLastD_eq_getLast?, List.getLast?_eq_getLast bp2 hne2]
    rfl
  simp only [normalizeE]
  rw [if_neg (by simp)]
  rw [List.getLastD_concat, if_pos rfl, List.dropLast_concat]
  rw [if_neg (by simp [List.isEmpty_eq_false, hne2])]
  rw [hlgd, if_neg hkey]

/-- Witness for C8 (amended) at the stored pair `([0, 3, 7], 9 tokens)`,
whose normalization `[0, 3, 9]` (the 2-token trailing bar is dropped)
re-normalizes to itself. -/
theorem normalize_idempotent_amended_check :
    normalizeE [0, 3, 9] 9 = .ok [0, 3, 9] :=
  normalize_idempotent_amended [0, 3, 7] [0, 3, 9] 9 (by decide) rfl
    (by decide)

/-! ## Claim C9 -/

theorem setRangeAux_length :
    ∀ (arr : List Nat) (j st ed v : Nat),
      (setRangeAux arr j st ed v).length = arr.length := by
  intro arr
  induction arr with
  | nil => intro j st ed v; rfl
  | cons x xs ih =>
    intro j st ed v
    simp only [setRangeAux, List.length_cons, ih]

theorem setRangeAux_getD :
    ∀ (arr : List Nat) (j0 k st ed v : Nat),
      (setRangeAux arr j0 st ed v).getD k 0
        = if st ≤ j0 + k ∧ j0 + k < ed ∧ k < arr.length then v
          else arr.getD k 0 := by
  intro arr
  induction arr with
  | nil =>
    intro j0 k st ed v
    simp only [setRangeAux, List.length_nil]
    rw [if_neg (by omega)]
  | cons x xs ih =>
    intro j0 k st ed v
    cases k with
    | zero =>
      simp only [setRangeAux, List.getD_cons_zero, Nat.add_zero,
        List.length_cons]
      exact if_congr (by omega) rfl rfl
    | succ k =>
      simp only [setRangeAux, List.getD_cons_succ, List.length_cons]
      rw [ih (j0 + 1) k st ed v]
      exact if_congr (by omega) rfl rfl

/-- Setting a range preserves the array length, lifted over the expansion
fold. -/
theorem foldSet_length :
    ∀ (ts : List ((Nat × Nat) × Nat)) (arr : List Nat),
      (ts.foldl (fun arr t => setRange arr t.1.1 t.1.2 t.2) arr).length
        = arr.length := by
  intro ts
  induction ts with
  | nil => intro arr; rfl
  | cons t ts ih =>
    intro arr
    rw [List.foldl_cons, ih, setRange, setRangeAux_length]

/-- A position covered by none of the remaining spans keeps its value
through the expansion fold. -/
theorem foldSet_notouch :
    ∀ (ts : List ((Nat × Nat) × Nat)) (arr : List Nat) (j : Nat),
      (∀ t ∈ ts, ¬(t.1.1 ≤ j ∧ j < t.1.2)) →
      (ts.foldl (fun arr t => setRange arr t.1.1 t.1.2 t.2) arr).getD j 0
        = arr.getD j 0 := by
  intro ts
  induction ts with
  | nil => intro arr j _; rfl
  | cons t ts ih =>
    intro arr j h
    rw [List.foldl_cons, ih _ _ (fun u hu => h u (List.mem_cons_of_mem t hu))]
    rw [setRange, setRangeAux_getD]
    rw [if_neg (fun hh => h t (List.mem_cons_self t ts) ⟨by omega, by omega⟩)]

/-- Elements of a sorted list are bounded below by the head. -/
theorem sorted_head_le {b1 : Nat} {rest : List Nat}
    (hs : List.Sorted (· ≤ ·) (b1 :: rest)) :
    ∀ x ∈ b1 :: rest, b1 ≤ x := by
  intro x hx
  rcases List.mem_cons.mp hx with rfl | hx
  · exact le_refl x
  · exact (List.pairwise_cons.mp hs).1 x hx

/-- The covering property of the attribute-expansion fold: a decoder
position inside the span of consecutive boundary entries `i` and `i + 1`
receives label `cls[i]`. -/
theorem expand_cover_aux :
    ∀ (bp cls arr : List Nat) (i j : Nat),
      List.Sorted (· ≤ ·) bp → i + 1 < bp.length → i < cls.length →
      bp.getD i 0 ≤ j → j < bp.getD (i + 1) 0 → j < arr.length →
      (((bp.zip bp.tail).zip cls).foldl
        (fun arr t => setRange arr t.1.1 t.1.2 t.2) arr).getD j 0
        = cls.getD i 0 := by
  intro bp
  induction bp with
  | nil =>
    intro cls arr i j _ h2 _ _ _ _
    simp at h2
  | cons b0 rest0 ihb =>
    intro cls arr i j hsort h2 hcls hlo hhi hjlen
    cases rest0 with
    | nil => simp at h2
    | cons b1 rest =>
      cases cls with
      | nil => simp at hcls
      | cons c0 cls' =>
        simp only [List.tail_cons, List.zip_cons_cons, List.foldl_cons]
        cases i with
        | zero =>
          rw [foldSet_notouch]
          · rw [setRange, setRangeAux_getD]
            rw [if_pos ⟨by simpa using hlo, by simpa using hhi, hjlen⟩]
            rfl
          · rintro ⟨⟨st, ed⟩, c⟩ ht
            have hst : st ∈ b1 :: rest :=
              (List.of_mem_zip (List.of_mem_zip ht).1).1
            have hble : b1 ≤ st :=
              sorted_head_le (List.pairwise_cons.mp hsort).2 st hst
            have hjb1 : j < b1 := by simpa using hhi
            intro hh
            have hh' : st ≤ j ∧ j < ed := hh
            omega
        | succ i' =>
          have := ihb cls' (setRange arr b0 b1 c0) i' j
            (List.pairwise_cons.mp hsort).2
            (by simpa using h2) (by simpa using hcls)
            (by simpa using hlo) (by simpa using hhi)
            (by rw [setRange, setRangeAux_length]; exact hjlen)
          simpa using this

/-- Every element of a sorted list is at most its last element. -/
theorem sorted_le_getLast {l : List Nat} (hs : List.Sorted (· ≤ ·) l)
    (hne : l ≠ []) : ∀ x ∈ l, x ≤ l.getLast hne := by
  intro x hx
  have hsplit := List.dropLast_append_getLast hne
  rw [← hsplit] at hs hx
  rcases List.mem_append.mp hx with h | h
  · exact (List.pairwise_append.mp hs).2.2 x h _ (List.mem_singleton_self _)
  · rw [List.mem_singleton.mp h]

/-- Counterexample to C9: piece boundaries `[0, 3, 6, 9]`, nine tokens,
`model_max_bars = 2`, start bar 0.  The window has the two real bars
`[0, 3)` and `[3, 6)` (in window coordinates) and labels `[5, 7]`, but the
expansion loop pairs only the entries of the pre-append `bar_pos = [0, 3]`,
so decoder position 3 — inside the second real bar — keeps label 0 instead
of receiving 7. -/
theorem attr_expand_last_bar_cex :
    (getSampleFromFile [0, 3, 6, 9] (List.range 9) 2 none 0).barPos = [0, 3]
    ∧ (getSampleFromFile [0, 3, 6, 9] (List.range 9) 2 none 0).nBars = 2
    ∧ (getSampleFromFile [0, 3, 6, 9] (List.range 9) 2 none 0).evs.length = 6
    ∧ expandAttrCls 8 [0, 3] [5, 7] = [5, 5, 5, 0, 0, 0, 0, 0]
    ∧ (expandAttrCls 8 [0, 3] [5, 7]).getD 3 0 = 0
    ∧ (expandAttrCls 8 [0, 3] [5, 7]).getD 3 0 ≠ ([5, 7] : List Nat).getD 1 0 := by
  decide

/-- Claim C9 as amended: the attribute expansion broadcasts `cls[i]` over
the decoder span between consecutive entries `i` and `i + 1` of the
pre-append window boundary list, and every position at or beyond the final
entry of that list keeps label 0 — in particular (truncating branch) the
window's final real bar keeps label 0, and positions beyond the real bars
keep label 0. -/
theorem attr_expand_amended (decLen : Nat) (barPos cls : List Nat)
    (hsort : List.Sorted (· ≤ ·) barPos)
    (hcls : barPos.length ≤ cls.length + 1) :
    (expandAttrCls decLen barPos cls).length = decLen
    ∧ (∀ i j, i + 1 < barPos.length → barPos.getD i 0 ≤ j →
        j < barPos.getD (i + 1) 0 → j < decLen →
        (expandAttrCls decLen barPos cls).getD j 0 = cls.getD i 0)
    ∧ (∀ j l, barPos.getLast? = some l → l ≤ j → j < decLen →
        (expandAttrCls decLen barPos cls).getD j 0 = 0) := by
  refine ⟨?_, ?_, ?_⟩
  · rw [expandAttrCls, foldSet_length, List.length_replicate]
  · intro i j h1 h2 h3 h4
    exact expand_cover_aux barPos cls _ i j hsort h1 (by omega) h2 h3
      (by rw [List.length_replicate]; exact h4)
  · intro j l hl hle hj
    have hne : barPos ≠ [] := by
      intro hh
      rw [hh] at hl
      cases hl
    have hlast : l = barPos.getLast hne := by
      rw [List.getLast?_eq_getLast barPos hne] at hl
      exact (Option.some_inj.mp hl).symm
    rw [expandAttrCls, foldSet_notouch]
    · rw [List.getD_eq_getElem?_getD, List.getElem?_replicate, if_pos hj]
      rfl
    · rintro ⟨⟨st, ed⟩, c⟩ ht
      have hed : ed ∈ barPos :=
        List.mem_of_mem_tail (List.of_mem_zip (List.of_mem_zip ht).1).2
      have := sorted_le_getLast hsort hne ed hed
      intro hh
      have hh' : st ≤ j ∧ j < ed := hh
      omega

/-- Witness for C9 (amended) at boundaries `[0, 2, 5]`, labels `[4, 6]`,
decoder length 6: position 3 belongs to the span `[2, 5)` and receives
label 6. -/
theorem attr_expand_amended_check :
    (expandAttrCls 6 [0, 2, 5] [4, 6]).getD 3 0 = ([4, 6] : List Nat).getD 1 0 := by
  exact (attr_expand_amended 6 [0, 2, 5] [4, 6] (by decide) (by decide)).2.1
    1 3 (by decide) (by decide) (by decide) (by decide)

/-! ## Claim C10 -/

/-- Claim C10: for every piece (non-empty normalized boundary list), every
configuration, every random draw from the valid start range and every
appointed start bar, `get_sample_from_file` returns exactly
`model_max_bars` boundary entries (in both the truncating and the padding
branch), `__getitem__` appends the window token count for a total of
`model_max_bars + 1`, and so the assertion at the top of
`get_encoder_input_data` never fails. -/
theorem bar_positions_assert_holds (bpAll evs : List Nat)
    (maxBars encLen pad draw : Nat) (appoint : Option Nat)
    (hne : bpAll ≠ [])
    (hdraw : appoint = none → maxBars < bpAll.length →
      draw + maxBars < bpAll.length) :
    (getSampleFromFile bpAll evs maxBars appoint draw).barPos.length = maxBars
    ∧ (getitemBarPos (getSampleFromFile bpAll evs maxBars appoint draw)).length
        = maxBars + 1
    ∧ (getEncoderInputDataChecked maxBars encLen pad
        (getitemBarPos (getSampleFromFile bpAll evs maxBars appoint draw))
        (getSampleFromFile bpAll evs maxBars appoint draw).evs).isSome = true := by
  have hbpos : 0 < bpAll.length := List.length_pos.mpr hne
  have hbar : (getSampleFromFile bpAll evs maxBars appoint draw).barPos.length
      = maxBars := by
    cases appoint with
    | none =>
      by_cases hgt : bpAll.length > maxBars
      · have hdr := hdraw rfl hgt
        simp only [getSampleFromFile]
        rw [if_pos (show bpAll.length > maxBars ∧ True from ⟨hgt, trivial⟩)]
        rw [if_pos hgt]
        show (((bpAll.drop draw).take maxBars).map _).length = maxBars
        rw [List.length_map, List.length_take, List.length_drop]
        omega
      · simp only [getSampleFromFile]
        rw [if_neg (show ¬(bpAll.length > maxBars ∧ True) from fun hc => hgt hc.1)]
        rw [if_neg hgt]
        show (bpAll ++ List.replicate (maxBars - bpAll.length) _).length = maxBars
        rw [List.length_append, List.length_replicate]
        omega
    | some a =>
      by_cases hgt : bpAll.length > maxBars
      · simp only [getSampleFromFile]
        rw [if_neg (show ¬(bpAll.length > maxBars ∧ (some a : Option Nat) = none)
          from fun hc => Option.noConfusion hc.2)]
        rw [if_pos hgt]
        by_cases hc : a + maxBars < bpAll.length
        · rw [if_pos hc]
          show (((bpAll.drop a).take maxBars).map _).length = maxBars
          rw [List.length_map, List.length_take, List.length_drop]
          omega
        · rw [if_neg hc]
          show (((bpAll.drop 0).take maxBars).map _).length = maxBars
          rw [List.length_map, List.length_take, List.length_drop]
          omega
      · simp only [getSampleFromFile]
        rw [if_neg (show ¬(bpAll.length > maxBars ∧ (some a : Option Nat) = none)
          from fun hc => Option.noConfusion hc.2)]
        rw [if_neg hgt]
        show (bpAll ++ List.replicate (maxBars - bpAll.length) _).length = maxBars
        rw [List.length_append, List.length_replicate]
        omega
  have hlen2 : (getitemBarPos (getSampleFromFile bpAll evs maxBars appoint draw)).length
      = maxBars + 1 := by
    rw [getitemBarPos, List.length_append, hbar]
    rfl
  refine ⟨hbar, hlen2, ?_⟩
  rw [getEncoderInputDataChecked, if_pos hlen2]
  rfl

/-- Witness for C10 at a four-bar piece, `model_max_bars = 2`, random draw
1 (a valid start), exercising the truncating branch end to end. -/
theorem bar_positions_assert_holds_check :
    (getEncoderInputDataChecked 2 4 9
      (getitemBarPos (getSampleFromFile [0, 2, 4, 6, 9] (List.range 9) 2 none 1))
      (getSampleFromFile [0, 2, 4, 6, 9] (List.range 9) 2 none 1).evs).isSome
      = true :=
  (bar_positions_assert_holds [0, 2, 4, 6, 9] (List.range 9) 2 4 9 1 none
    (by decide) (fun _ _ => by decide)).2.2
